import Mathlib

/-!
Shallow embedding of the LLRP codec runtime from llrp-codegen/base/common.rs,
together with representative instances of the code generated by
llrp-codegen/src/codegen.rs (define_message, define_parameter, define_enum).

Machine integers are modelled as Nat; the u32 bit accumulator wraps with an
explicit mod 2^32 where the source can overflow. Byte slices are lists of Nat
(each byte < 256 in well-formed inputs). Rust methods taking a mutable decoder
are modelled as functions Decoder -> Except Error A × Decoder; the returned
decoder is the state of the receiver after the call, also on the error path,
mirroring early returns that leave the receiver untouched.
-/

namespace LLRP

/-- Error type from common.rs. IoError wraps a host I/O error; the wrapped
payload is irrelevant to the modelled operations, so it is a unit variant. -/
inductive Error where
  | IoError
  | InsufficientData (needed : Nat) (remaining : Nat)
  | TrailingBits (n : Nat)
  | TrailingBytes (n : Nat)
  | TlvParameterLengthInvalid (len : Nat)
  | InvalidType (typeNum : Nat)
  | InvalidVariant (value : Nat)
  | UnknownMessageId (id : Nat)
deriving DecidableEq

/-- ParameterType from common.rs: a TV header id (7 bit) or a TLV id (10 bit). -/
inductive ParameterType where
  | Tv (id : Nat)
  | Tlv (id : Nat)
deriving DecidableEq

/-- ParameterType::as_u16. -/
def ParameterType.as_u16 : ParameterType → Nat
  | .Tv id => id
  | .Tlv id => id

/-- Decoder state: remaining byte slice, u32 bit accumulator, count of valid
bits held by the accumulator. -/
structure Decoder where
  bytes : List Nat
  bits : Nat
  validBits : Nat
deriving DecidableEq

/-- Decoder::new. -/
def Decoder.new (bytes : List Nat) : Decoder := ⟨bytes, 0, 0⟩

/-- Encoder state: output buffer, u32 bit accumulator, valid bit count. -/
structure Encoder where
  buffer : List Nat
  bits : Nat
  validBits : Nat
deriving DecidableEq

/-- Encoder::new wraps a caller supplied buffer. -/
def Encoder.new (buffer : List Nat) : Encoder := ⟨buffer, 0, 0⟩

/-- Decoder::read_bytes: split off n bytes, or fail with InsufficientData. -/
def readBytes (n : Nat) (st : Decoder) : Except Error (List Nat) × Decoder :=
  if st.bytes.length < n then
    (.error (.InsufficientData n st.bytes.length), st)
  else
    (.ok (st.bytes.take n), { st with bytes := st.bytes.drop n })

/-- u8 decode from common.rs: one byte. -/
def readU8 (st : Decoder) : Except Error Nat × Decoder :=
  match readBytes 1 st with
  | (.error e, st1) => (.error e, st1)
  | (.ok bs, st1) => (.ok (bs.headD 0), st1)

/-- u16 decode from common.rs: two bytes, big endian. -/
def readU16 (st : Decoder) : Except Error Nat × Decoder :=
  match readBytes 2 st with
  | (.error e, st1) => (.error e, st1)
  | (.ok bs, st1) => (.ok (256 * bs.headD 0 + (bs.drop 1).headD 0), st1)

/-- Decoder::peek_param_type: requires two bytes; high bit of the first byte
selects a TV header (low 7 bits), otherwise a TLV header (10 bits of the big
endian pair). Pure inspection, no state change. -/
def peekParamType (st : Decoder) : Except Error ParameterType :=
  match st.bytes with
  | b0 :: b1 :: _ =>
    if b0 &&& 128 ≠ 0 then .ok (.Tv (b0 &&& 127))
    else .ok (.Tlv ((256 * b0 + b1) &&& 1023))
  | _ => .error (.InsufficientData 2 st.bytes.length)

/-- Decoder::get_message_type: the peeked header id in either branch. -/
def getMessageType (st : Decoder) : Except Error Nat :=
  match peekParamType st with
  | .ok t => .ok t.as_u16
  | .error e => .error e

/-- Decoder::check_param_type: peek the header, compare with the wanted id,
consume 1 byte (TV) or 2 bytes (TLV) on a match, else InvalidType. -/
def checkParamType (typeId : Nat) (st : Decoder) : Except Error Unit × Decoder :=
  match peekParamType st with
  | .error e => (.error e, st)
  | .ok (.Tv id) =>
    if id = typeId then (.ok (), { st with bytes := st.bytes.drop 1 })
    else (.error (.InvalidType id), st)
  | .ok (.Tlv id) =>
    if id = typeId then (.ok (), { st with bytes := st.bytes.drop 2 })
    else (.error (.InvalidType id), st)

/-- Decoder::validate_consumed: only the byte slice is checked. -/
def validateConsumed (st : Decoder) : Except Error Unit :=
  if st.bytes ≠ [] then .error (.TrailingBytes st.bytes.length)
  else .ok ()

/-- While loop of Decoder::read_bits: while fewer than numBits bits are
buffered, shift in one more byte (u32 arithmetic wraps at 2^32). -/
def fillBits (numBits : Nat) (st : Decoder) : Except Error Unit × Decoder :=
  if h : st.validBits < numBits then
    match readU8 st with
    | (.error e, st1) => (.error e, st1)
    | (.ok b, st1) =>
      fillBits numBits ⟨st1.bytes, ((st.bits <<< 8) % 4294967296) ||| b, st.validBits + 8⟩
  else (.ok (), st)
termination_by numBits - st.validBits
decreasing_by simp_wf; omega

/-- Decoder::read_bits: fill the accumulator, peel numBits bits from the high
end, keep the remainder masked into the accumulator. Returns the raw u32 out
value before the Bits conversion. -/
def readBits (numBits : Nat) (st : Decoder) : Except Error Nat × Decoder :=
  match fillBits numBits st with
  | (.error e, st1) => (.error e, st1)
  | (.ok _, st1) =>
    let offset := st1.validBits - numBits
    ( .ok (st1.bits >>> offset),
      ⟨st1.bytes, st1.bits &&& ((1 <<< offset) - 1), st1.validBits - numBits⟩ )

/-- Decoder::tlv_param: work on a clone; check the header, read the length
field, validate 4 ≤ len ≤ remaining, clip the clone to the body slice, run
the body, require full consumption, then advance the outer cursor by len.
Every failure returns before the outer state is assigned. -/
def tlvParam {α : Type} (tlvId : Nat) (body : Decoder → Except Error α × Decoder)
    (st : Decoder) : Except Error α × Decoder :=
  match checkParamType tlvId st with
  | (.error e, _) => (.error e, st)
  | (.ok _, d1) =>
    match readU16 d1 with
    | (.error e, _) => (.error e, st)
    | (.ok paramLen, d2) =>
      if paramLen < 4 ∨ paramLen > st.bytes.length then
        (.error (.TlvParameterLengthInvalid (paramLen % 65536)), st)
      else
        match body ⟨(st.bytes.drop 4).take (paramLen - 4), d2.bits, d2.validBits⟩ with
        | (.error e, _) => (.error e, st)
        | (.ok v, d4) =>
          match validateConsumed d4 with
          | .error e => (.error e, st)
          | .ok _ => (.ok v, { st with bytes := st.bytes.drop paramLen })

/-- Option decode from common.rs: peek the next header; if the inner type
accepts it, decode and wrap, otherwise (type mismatch or peek failure)
return none without consuming anything. -/
def optionDecode {α : Type} (canDecode : Nat → Bool)
    (inner : Decoder → Except Error α × Decoder) (st : Decoder) :
    Except Error (Option α) × Decoder :=
  match peekParamType st with
  | .ok ty =>
    if canDecode ty.as_u16 then
      match inner st with
      | (.ok v, st1) => (.ok (some v), st1)
      | (.error e, st1) => (.error e, st1)
    else (.ok none, st)
  | .error _ => (.ok none, st)

/-- Vec decode from common.rs: loop collecting elements while the peeked
header id is accepted; stop silently on mismatch or peek failure; propagate
element decode errors. The fuel argument bounds the loop; every accepted
element consumes at least one byte, so any fuel above the slice length is
enough. -/
def vecDecode {α : Type} (canDecode : Nat → Bool)
    (inner : Decoder → Except Error α × Decoder) :
    Nat → Decoder → Except Error (List α) × Decoder
  | 0, st => (.ok [], st)
  | fuel + 1, st =>
    match getMessageType st with
    | .error _ => (.ok [], st)
    | .ok ty =>
      if canDecode ty then
        match inner st with
        | (.error e, st1) => (.error e, st1)
        | (.ok v, st1) =>
          match vecDecode canDecode inner fuel st1 with
          | (.error e, st2) => (.error e, st2)
          | (.ok vs, st2) => (.ok (v :: vs), st2)
      else (.ok [], st)

/-- Encoder::write_bytes. -/
def writeBytes (bs : List Nat) (e : Encoder) : Encoder :=
  { e with buffer := e.buffer ++ bs }

/-- While loop of Encoder::write_bits: while at least 8 bits are buffered,
emit the LOW byte of the accumulator and shift right by 8. -/
def drainBits (e : Encoder) : Encoder :=
  if h : 8 ≤ e.validBits then
    drainBits ⟨e.buffer ++ [e.bits &&& 255], e.bits >>> 8, e.validBits - 8⟩
  else e
termination_by e.validBits
decreasing_by simp_wf; omega

/-- Encoder::write_bits: append the value to the low end of the accumulator
(u32 arithmetic wraps at 2^32), then emit completed bytes. -/
def writeBits (value numBits : Nat) (e : Encoder) : Encoder :=
  drainBits ⟨e.buffer, ((e.bits <<< numBits) % 4294967296) ||| value, e.validBits + numBits⟩

/-- Big endian bytes of a value cast to u16, as produced by to_be_bytes. -/
def u16BeBytes (n : Nat) : List Nat := [(n % 65536) / 256, n % 256]

/-- BitArray from common.rs. -/
structure BitArray where
  bytes : List Nat
deriving DecidableEq

/-- BitArray decode from common.rs: read a u16 bit count, then numBits / 8
payload bytes. -/
def BitArray.decode (st : Decoder) : Except Error BitArray × Decoder :=
  match readU16 st with
  | (.error e, st1) => (.error e, st1)
  | (.ok numBits, st1) =>
    match readBytes (numBits / 8) st1 with
    | (.error e, st2) => (.error e, st2)
    | (.ok bs, st2) => (.ok ⟨bs⟩, st2)

/-- BitArray encode from common.rs: the source writes only the big endian
u16 value bytes.len() / 8 and omits the payload bytes. Transcribed exactly
as written. -/
def BitArray.encode (a : BitArray) (e : Encoder) : Encoder :=
  writeBytes (u16BeBytes (a.bytes.length / 8)) e

/-- Enumeration instance following define_enum in codegen.rs, with the two
variants V0 = 0 and V1 = 1. -/
inductive TestEnum where
  | V0
  | V1
deriving DecidableEq

/-- Generated LLRPEnumeration::from_value: match on the variant value table,
unknown values give InvalidVariant. -/
def TestEnum.fromValue (value : Nat) : Except Error TestEnum :=
  match value with
  | 0 => .ok .V0
  | 1 => .ok .V1
  | other => .error (.InvalidVariant other)

/-- Blanket impl Bits for E: LLRPEnumeration in common.rs calls
from_value(bits).unwrap(). The unwrap aborts the program when from_value
errs; that abort is modelled as none. -/
def TestEnum.fromBits (bits : Nat) : Option TestEnum :=
  match TestEnum.fromValue bits with
  | .ok v => some v
  | .error _ => none

/-- Decoder::read_enum_bits at TestEnum: read_bits then the Bits conversion
of the blanket enumeration impl; none propagates the unwrap abort. -/
def readEnumBitsTest (numBits : Nat) (st : Decoder) :
    Option (Except Error TestEnum × Decoder) :=
  match readBits numBits st with
  | (.error e, st1) => some (.error e, st1)
  | (.ok v, st1) =>
    match TestEnum.fromBits v with
    | some x => some (.ok x, st1)
    | none => none

/-- TLV parameter instance following define_parameter in codegen.rs: type
number 300, a single u16 field. -/
structure SimpleParam where
  value : Nat
deriving DecidableEq

/-- Generated can_decode_type: equality with the TLV id. -/
def SimpleParam.canDecodeType (typeNum : Nat) : Bool := typeNum == 300

/-- Generated LLRPValue::decode: a tlv_param scope decoding the fields in
order. -/
def SimpleParam.decode (st : Decoder) : Except Error SimpleParam × Decoder :=
  tlvParam 300
    (fun d =>
      match readU16 d with
      | (.error e, d1) => (.error e, d1)
      | (.ok v, d1) => (.ok ⟨v⟩, d1))
    st

/-- Message instance following define_message in codegen.rs: a single field
of type BitArray (wire type u1v, Manual encoding). Decode wraps the payload
in a fresh decoder, decodes the fields in order and returns the remaining
bytes; encode appends the fields to the caller buffer. -/
structure TestBitMessage where
  data : BitArray
deriving DecidableEq

/-- Generated LLRPMessage::decode for TestBitMessage. -/
def TestBitMessage.decode (data : List Nat) :
    Except Error (TestBitMessage × List Nat) :=
  match BitArray.decode (Decoder.new data) with
  | (.error e, _) => .error e
  | (.ok v, d1) => .ok (⟨v⟩, d1.bytes)

/-- Generated LLRPMessage::encode for TestBitMessage. -/
def TestBitMessage.encode (m : TestBitMessage) (buffer : List Nat) : List Nat :=
  (BitArray.encode m.data (Encoder.new buffer)).buffer

/-- Sequence of write_bits calls, one per (width, value) pair. -/
def writeBitsSeq (fields : List (Nat × Nat)) (e : Encoder) : Encoder :=
  fields.foldl (fun acc f => writeBits f.2 f.1 acc) e

/-- Sequence of read_bits calls with the given widths, collecting the raw
out values in order. -/
def readBitsSeq : List Nat → Decoder → Except Error (List Nat) × Decoder
  | [], st => (.ok [], st)
  | n :: rest, st =>
    match readBits n st with
    | (.error e, st1) => (.error e, st1)
    | (.ok v, st1) =>
      match readBitsSeq rest st1 with
      | (.error e, st2) => (.error e, st2)
      | (.ok vs, st2) => (.ok (v :: vs), st2)

/-- Total width of a field group. -/
def sumWidths (g : List (Nat × Nat)) : Nat := (g.map Prod.fst).sum

/-- MSB first packing of a field group on top of an accumulator value. -/
def packBits (w : Nat) (g : List (Nat × Nat)) : Nat :=
  g.foldl (fun acc f => acc * 2 ^ f.1 + f.2) w

/-- A byte aligned group of bit fields: widths at least 1, values in range,
widths summing to exactly 8, so no field straddles a byte boundary. -/
def goodGroup (g : List (Nat × Nat)) : Prop :=
  (∀ f ∈ g, 1 ≤ f.1 ∧ f.2 < 2 ^ f.1) ∧ sumWidths g = 8

instance (g : List (Nat × Nat)) : Decidable (goodGroup g) := by
  unfold goodGroup; infer_instance

/-- Prepend already decoded values to the result of a reader continuation. -/
def prependValues (vs : List Nat) (r : Except Error (List Nat) × Decoder) :
    Except Error (List Nat) × Decoder :=
  match r with
  | (.ok vs2, st) => (.ok (vs ++ vs2), st)
  | (.error e, st) => (.error e, st)

instance {ε α : Type} [DecidableEq ε] [DecidableEq α] : DecidableEq (Except ε α)
  | .ok a, .ok b => if h : a = b then .isTrue (by rw [h]) else .isFalse (by simp [h])
  | .ok _, .error _ => .isFalse (by simp)
  | .error _, .ok _ => .isFalse (by simp)
  | .error a, .error b => if h : a = b then .isTrue (by rw [h]) else .isFalse (by simp [h])

/-- A first byte with the high bit set has a nonzero AND with 128. -/
theorem and128_ne_zero_of_ge (b0 : Nat) (h1 : 128 ≤ b0) (h2 : b0 < 256) :
    b0 &&& 128 ≠ 0 := by
  intro h
  have h7 : b0.testBit 7 = true := by
    rw [Nat.testBit_to_div_mod]
    have h128 : (2 : Nat) ^ 7 = 128 := by norm_num
    rw [h128]
    have hq : b0 / 128 = 1 := by omega
    simp [hq]
  have hand : (b0 &&& 128).testBit 7 = true := by
    have h128 : (128 : Nat) = 2 ^ 7 := by norm_num
    rw [Nat.testBit_and, h7, h128, Nat.testBit_two_pow_self]
    rfl
  rw [h] at hand
  simp at hand

/-- C1: for every generated message type, decode of valid wire bytes followed
by encode reproduces the buffer, and encode followed by decode is the
identity. Refuted by evaluation on the generated message instance with a
BitArray (u1v) field: the BitArray encode in common.rs writes bytes.len()/8
as the count and omits the payload, so the round trip fails. -/
theorem c1_bitarray_message_roundtrip_fails :
    TestBitMessage.decode [0, 8, 171] = .ok (⟨⟨[171]⟩⟩, [])
    ∧ TestBitMessage.encode ⟨⟨[171]⟩⟩ [] = [0, 0]
    ∧ TestBitMessage.encode ⟨⟨[171]⟩⟩ [] ≠ [0, 8, 171]
    ∧ TestBitMessage.decode (TestBitMessage.encode ⟨⟨[171]⟩⟩ []) ≠ .ok (⟨⟨[171]⟩⟩, []) := by
  refine ⟨by decide, by decide, by decide, by decide⟩

/-- C3: encoding a BitArray is claimed to write a 16 bit big endian bit count
followed by the payload bytes, making decode of encode the identity on whole
byte BitArrays. Evaluation at the one byte BitArray 0xAB: encode emits
[0, 0] (the count is bytes.len()/8 = 0 and no payload is written), and
decoding that yields the empty BitArray, not the original. -/
theorem c3_bitarray_encode_eval :
    BitArray.encode ⟨[171]⟩ (Encoder.new []) = ⟨[0, 0], 0, 0⟩
    ∧ (BitArray.decode (Decoder.new [0, 0])).1 = .ok ⟨[]⟩
    ∧ (⟨[]⟩ : BitArray) ≠ (⟨[171]⟩ : BitArray) := by
  refine ⟨by decide, by decide, by decide⟩

/-- C7: when the next header carries a type number the inner type does not
accept, Option decode yields none and the whole decoder state is returned
unchanged. -/
theorem c7_option_mismatch_state_unchanged {α : Type} (canDecode : Nat → Bool)
    (inner : Decoder → Except Error α × Decoder) (st : Decoder) (ty : ParameterType)
    (hpeek : peekParamType st = .ok ty) (hno : canDecode ty.as_u16 = false) :
    optionDecode canDecode inner st = (.ok none, st) := by
  simp [optionDecode, hpeek, hno]

/-- Witness for C7: an Option of the generated parameter with TLV id 300 fed
a buffer whose next header has TLV id 301 yields none with the state intact. -/
theorem c7_witness :
    optionDecode SimpleParam.canDecodeType SimpleParam.decode ⟨[1, 45, 0, 4], 0, 0⟩
      = (.ok none, ⟨[1, 45, 0, 4], 0, 0⟩) :=
  c7_option_mismatch_state_unchanged SimpleParam.canDecodeType SimpleParam.decode
    ⟨[1, 45, 0, 4], 0, 0⟩ (.Tlv 301) (by decide) (by decide)

/-- C10: tlv_param is atomic on failure: whenever it returns an error, the
outer decoder state is exactly the input state, because all consumption
happens on a private clone and the outer cursor is assigned only after the
body succeeds and is fully consumed. -/
theorem tlvParam_state_or_ok {α : Type} (tlvId : Nat)
    (body : Decoder → Except Error α × Decoder) (st : Decoder) :
    (tlvParam tlvId body st).2 = st ∨ ∃ v, (tlvParam tlvId body st).1 = .ok v := by
  unfold tlvParam
  rcases checkParamType tlvId st with ⟨r1, d1⟩
  cases r1 with
  | error e1 => left; rfl
  | ok u =>
    dsimp only
    rcases readU16 d1 with ⟨r2, d2⟩
    cases r2 with
    | error e2 => left; rfl
    | ok paramLen =>
      dsimp only
      by_cases hlen : paramLen < 4 ∨ paramLen > st.bytes.length
      · left; simp [hlen]
      · rw [if_neg hlen]
        rcases body ⟨(st.bytes.drop 4).take (paramLen - 4), d2.bits, d2.validBits⟩
          with ⟨r3, d4⟩
        cases r3 with
        | error e3 => left; rfl
        | ok v =>
          dsimp only
          rcases h4 : validateConsumed d4 with e4 | u4
          · left; simp [h4]
          · right; exact ⟨v, by simp [h4]⟩

theorem c10_tlv_param_atomic_on_error {α : Type} (tlvId : Nat)
    (body : Decoder → Except Error α × Decoder) (st : Decoder) (e : Error)
    (h : (tlvParam tlvId body st).1 = .error e) :
    (tlvParam tlvId body st).2 = st := by
  rcases tlvParam_state_or_ok tlvId body st with hst | ⟨v, hv⟩
  · exact hst
  · rw [h] at hv
    exact absurd hv (by simp)

/-- Witness for C10: a frame whose TLV length field is 3 fails the length
check and the outer decoder is returned untouched. -/
theorem c10_witness :
    (tlvParam 300 (fun d => ((.ok 0 : Except Error Nat), d)) ⟨[1, 44, 0, 3], 0, 0⟩).2
      = ⟨[1, 44, 0, 3], 0, 0⟩
    ∧ (tlvParam 300 (fun d => ((.ok 0 : Except Error Nat), d)) ⟨[1, 44, 0, 3], 0, 0⟩).1
      = .error (.TlvParameterLengthInvalid 3) :=
  ⟨c10_tlv_param_atomic_on_error 300 _ _ (.TlvParameterLengthInvalid 3) (by decide), by decide⟩

/-- Counterexample to C9 as stated: peeking a buffer holding a single TV
header byte (0x81) does not succeed; the first check of peek_param_type
demands two bytes in every branch, so it fails with InsufficientData. -/
theorem c9_counterexample :
    peekParamType ⟨[129], 0, 0⟩ = .error (.InsufficientData 2 1)
    ∧ (peekParamType ⟨[129], 0, 0⟩).isOk = false := by
  refine ⟨by decide, by decide⟩

/-- C9 amended: peek_param_type requires at least 2 available bytes in both
branches; with two bytes present and the high bit of the first byte set it
returns the TV type held in the low 7 bits, without consuming anything and
without looking past the first byte. -/
theorem c9_peek_requires_two_bytes :
    (∀ bits valid b, peekParamType ⟨[b], bits, valid⟩ = .error (.InsufficientData 2 1))
    ∧ (∀ bits valid, peekParamType ⟨[], bits, valid⟩ = .error (.InsufficientData 2 0))
    ∧ (∀ bits valid b0 b1 rest, 128 ≤ b0 → b0 < 256 →
        peekParamType ⟨b0 :: b1 :: rest, bits, valid⟩ = .ok (.Tv (b0 &&& 127))) := by
  refine ⟨fun bits valid b => rfl, fun bits valid => rfl, fun bits valid b0 b1 rest h1 h2 => ?_⟩
  simp [peekParamType, and128_ne_zero_of_ge b0 h1 h2]

/-- Witness for C9 amended: with two bytes 0x81 0x00 the peek yields the TV
id 1, regardless of the second byte. -/
theorem c9_witness :
    peekParamType ⟨[129, 0], 0, 0⟩ = .ok (.Tv 1) := by
  have h := c9_peek_requires_two_bytes.2.2 0 0 129 0 [] (by decide) (by decide)
  simpa using h

/-- C8: decoding an enumeration encoded as a bit field with an underlying
value outside the variant table is claimed to yield an InvalidVariant decode
error rather than aborting. Evaluation: from_value correctly reports
InvalidVariant, but the blanket Bits impl used by read_enum_bits calls
from_value(bits).unwrap(), so read_enum_bits aborts (modelled as none) on
the byte 0xC0 read as a 2 bit field (underlying value 3). -/
theorem c8_enum_bits_panic_eval :
    TestEnum.fromValue 3 = .error (.InvalidVariant 3)
    ∧ readEnumBitsTest 2 ⟨[192], 0, 0⟩ = none := by
  constructor
  · decide
  · simp [readEnumBitsTest, readBits, fillBits, readU8, readBytes,
      TestEnum.fromBits, TestEnum.fromValue]

/-- The only error peek_param_type can produce is InsufficientData for the
two byte requirement. -/
theorem peek_error_shape (st : Decoder) (e : Error)
    (h : peekParamType st = .error e) : e = .InsufficientData 2 st.bytes.length := by
  unfold peekParamType at h
  rcases hst : st.bytes with _ | ⟨b0, _ | ⟨b1, rest⟩⟩ <;> rw [hst] at h
  · simp at h
    exact h.symm
  · simp at h
    exact h.symm
  · dsimp only at h
    split_ifs at h

/-- check_param_type never produces a TrailingBits error. -/
theorem checkParamType_no_trailing_bits (typeId : Nat) (st d1 : Decoder) (n : Nat)
    (h : checkParamType typeId st = (.error (.TrailingBits n), d1)) : False := by
  unfold checkParamType at h
  rcases hp : peekParamType st with e | t
  · rw [hp] at h
    dsimp only at h
    have he := peek_error_shape st e hp
    have := congrArg Prod.fst h
    simp [he] at this
  · rw [hp] at h
    cases t <;> dsimp only at h <;> split_ifs at h <;>
      · have := congrArg Prod.fst h
        simp at this

/-- The u16 read never produces a TrailingBits error. -/
theorem readU16_no_trailing_bits (d1 d2 : Decoder) (n : Nat)
    (h : readU16 d1 = (.error (.TrailingBits n), d2)) : False := by
  unfold readU16 readBytes at h
  by_cases hl : d1.bytes.length < 2
  · simp [hl] at h
  · simp [hl] at h

/-- Counterexample to C4 as stated: a TLV parameter whose body reads only 4
bits of its single body byte decodes successfully even though the sub
decoder ends holding 4 valid bits; no TrailingBits error is raised. -/
theorem c4_counterexample :
    (readBits 4 ⟨[240], 0, 0⟩).2.validBits = 4
    ∧ tlvParam 300 (readBits 4) ⟨[1, 44, 0, 5, 240], 0, 0⟩ = (.ok 15, ⟨[], 0, 0⟩) := by
  have hbody : readBits 4 ⟨[240], 0, 0⟩ = ((.ok 15 : Except Error Nat), ⟨[], 0, 4⟩) := by
    simp [readBits, fillBits, readU8, readBytes]
    all_goals decide
  constructor
  · rw [hbody]
  · have h1 : (1 : Nat) &&& 128 = 0 := by decide
    have h2 : (300 : Nat) &&& 1023 = 300 := by decide
    simp [tlvParam, checkParamType, peekParamType, readU16, readBytes,
      validateConsumed, h1, h2, hbody]

/-- C4 amended: at the end of a TLV parameter decode only the residual byte
slice is validated (TrailingBytes when nonempty); the bit accumulator is not
checked, and tlv_param never produces a TrailingBits error of its own, so a
successful parameter decode may end with buffered bits. -/
theorem c4_only_bytes_validated :
    (∀ st : Decoder, validateConsumed st =
      if st.bytes = [] then .ok () else .error (.TrailingBytes st.bytes.length))
    ∧ (∀ (α : Type) (tlvId : Nat) (body : Decoder → Except Error α × Decoder)
        (st st2 : Decoder) (n : Nat),
        (∀ d m, (body d).1 ≠ .error (.TrailingBits m)) →
        tlvParam tlvId body st ≠ (.error (.TrailingBits n), st2)) := by
  constructor
  · intro st
    by_cases h : st.bytes = []
    · simp [validateConsumed, h]
    · simp [validateConsumed, h]
  · intro α tlvId body st st2 n hbody
    intro hcontra
    unfold tlvParam at hcontra
    rcases h1 : checkParamType tlvId st with ⟨r1, d1⟩
    rw [h1] at hcontra
    cases r1 with
    | error e1 =>
      simp only [] at hcontra
      have : e1 = .TrailingBits n := by
        have := congrArg Prod.fst hcontra
        simpa using this
      rw [this] at h1
      exact checkParamType_no_trailing_bits tlvId st d1 n h1
    | ok u =>
      dsimp only at hcontra
      rcases h2 : readU16 d1 with ⟨r2, d2⟩
      rw [h2] at hcontra
      cases r2 with
      | error e2 =>
        have : e2 = .TrailingBits n := by
          have := congrArg Prod.fst hcontra
          simpa using this
        rw [this] at h2
        exact readU16_no_trailing_bits d1 d2 n h2
      | ok paramLen =>
        dsimp only at hcontra
        by_cases hlen : paramLen < 4 ∨ paramLen > st.bytes.length
        · rw [if_pos hlen] at hcontra
          have := congrArg Prod.fst hcontra
          simp at this
        · rw [if_neg hlen] at hcontra
          rcases h3 : body ⟨(st.bytes.drop 4).take (paramLen - 4), d2.bits, d2.validBits⟩
            with ⟨r3, d4⟩
          rw [h3] at hcontra
          cases r3 with
          | error e3 =>
            have : e3 = .TrailingBits n := by
              have := congrArg Prod.fst hcontra
              simpa using this
            apply hbody ⟨(st.bytes.drop 4).take (paramLen - 4), d2.bits, d2.validBits⟩ n
            rw [h3, this]
          | ok v =>
            dsimp only at hcontra
            rcases h4 : validateConsumed d4 with e4 | u4
            · rw [h4] at hcontra
              have he : e4 = .TrailingBits n := by
                have := congrArg Prod.fst hcontra
                simpa using this
              rw [he] at h4
              unfold validateConsumed at h4
              by_cases hb : d4.bytes = []
              · simp [hb] at h4
              · simp [hb] at h4
            · rw [h4] at hcontra
              have := congrArg Prod.fst hcontra
              simp at this

/-- Witness for C4 amended: the first conjunct at a decoder holding a byte,
and the second at a frame with a constant successful body. -/
theorem c4_witness :
    validateConsumed ⟨[7], 0, 0⟩ =
      (if ([7] : List Nat) = [] then .ok () else .error (.TrailingBytes 1))
    ∧ tlvParam 300 (fun _ => ((.ok 0 : Except Error Nat), ⟨[], 0, 7⟩))
        ⟨[1, 44, 0, 5, 240], 0, 0⟩ ≠ (.error (.TrailingBits 7), ⟨[1, 44, 0, 5, 240], 0, 0⟩) :=
  ⟨c4_only_bytes_validated.1 ⟨[7], 0, 0⟩,
    c4_only_bytes_validated.2 Nat 300 _ ⟨[1, 44, 0, 5, 240], 0, 0⟩
      ⟨[1, 44, 0, 5, 240], 0, 0⟩ 7 (fun d m => by simp)⟩

/-- Counterexample to C6 as stated: at a buffer of a single byte the header
peek fails with InsufficientData, yet Option decode absorbs that failure and
returns none, and Vec decode stops without error; the insufficient data
error does not propagate to the caller. -/
theorem c6_counterexample :
    peekParamType ⟨[129], 0, 0⟩ = .error (.InsufficientData 2 1)
    ∧ optionDecode SimpleParam.canDecodeType SimpleParam.decode ⟨[129], 0, 0⟩
      = (.ok none, ⟨[129], 0, 0⟩)
    ∧ vecDecode SimpleParam.canDecodeType SimpleParam.decode 2 ⟨[129], 0, 0⟩
      = (.ok [], ⟨[129], 0, 0⟩) := by
  refine ⟨by decide, by decide, by decide⟩

/-- C6 amended: Option and Vec containers absorb header type mismatches and
any peek_param_type failure (in particular InsufficientData raised while
peeking the next header), yielding absence respectively ending the run;
errors raised while decoding an element whose header type matched always
propagate to the caller. -/
theorem c6_container_error_absorption :
    (∀ (α : Type) (canDecode : Nat → Bool) (inner : Decoder → Except Error α × Decoder)
        (st : Decoder) (e : Error),
        peekParamType st = .error e →
        optionDecode canDecode inner st = (.ok none, st))
    ∧ (∀ (α : Type) (canDecode : Nat → Bool) (inner : Decoder → Except Error α × Decoder)
        (st st1 : Decoder) (ty : ParameterType) (e : Error),
        peekParamType st = .ok ty → canDecode ty.as_u16 = true →
        inner st = (.error e, st1) →
        optionDecode canDecode inner st = (.error e, st1))
    ∧ (∀ (α : Type) (canDecode : Nat → Bool) (inner : Decoder → Except Error α × Decoder)
        (st : Decoder) (e : Error) (fuel : Nat),
        getMessageType st = .error e →
        vecDecode canDecode inner (fuel + 1) st = (.ok [], st))
    ∧ (∀ (α : Type) (canDecode : Nat → Bool) (inner : Decoder → Except Error α × Decoder)
        (st st1 : Decoder) (ty e : _) (fuel : Nat),
        getMessageType st = .ok ty → canDecode ty = true →
        inner st = (.error e, st1) →
        vecDecode canDecode inner (fuel + 1) st = (.error e, st1)) := by
  refine ⟨?_, ?_, ?_, ?_⟩
  · intro α canDecode inner st e hpeek
    simp [optionDecode, hpeek]
  · intro α canDecode inner st st1 ty e hpeek hcan hinner
    simp [optionDecode, hpeek, hcan, hinner]
  · intro α canDecode inner st e fuel hget
    simp [vecDecode, hget]
  · intro α canDecode inner st st1 ty e fuel hget hcan hinner
    simp [vecDecode, hget, hcan, hinner]

/-- Witness for C6 amended: the propagation conjunct at the generated TLV
parameter whose header matches but whose length field is malformed; the
malformed length error surfaces from the Option decode. -/
theorem c6_witness :
    optionDecode SimpleParam.canDecodeType SimpleParam.decode ⟨[1, 44, 0, 3], 0, 0⟩
      = (.error (.TlvParameterLengthInvalid 3), ⟨[1, 44, 0, 3], 0, 0⟩) :=
  c6_container_error_absorption.2.1 SimpleParam SimpleParam.canDecodeType
    SimpleParam.decode ⟨[1, 44, 0, 3], 0, 0⟩ ⟨[1, 44, 0, 3], 0, 0⟩ (.Tlv 300)
    (.TlvParameterLengthInvalid 3) (by decide) (by decide) (by decide)

/-- C5: with a correctly typed TLV header whose 16 bit length field is
l0 l1 (big endian), tlv_param fails with TlvParameterLengthInvalid exactly
when the length is below 4 or above the remaining bytes of the enclosing
scope; in range, the body runs on a sub decoder clipped to the bytes from
offset 4 to the declared length (inheriting the bit accumulator), an error
of the body propagates, and on full consumption the outer cursor advances
by exactly the declared length while the outer accumulator is untouched. -/
theorem c5_tlv_param_length_check {α : Type} (tlvId : Nat)
    (body : Decoder → Except Error α × Decoder) (st : Decoder)
    (t0 t1 l0 l1 : Nat) (rest : List Nat)
    (hb : st.bytes = t0 :: t1 :: l0 :: l1 :: rest)
    (hpeek : peekParamType st = .ok (.Tlv tlvId))
    (hl0 : l0 < 256) (hl1 : l1 < 256) :
    (256 * l0 + l1 < 4 ∨ 256 * l0 + l1 > st.bytes.length →
        tlvParam tlvId body st
          = (.error (.TlvParameterLengthInvalid (256 * l0 + l1)), st))
    ∧ (4 ≤ 256 * l0 + l1 → 256 * l0 + l1 ≤ st.bytes.length →
        (∀ (v : α) (d4 : Decoder),
          body ⟨(st.bytes.drop 4).take (256 * l0 + l1 - 4), st.bits, st.validBits⟩
            = (.ok v, d4) →
          d4.bytes = [] →
          tlvParam tlvId body st
            = (.ok v, ⟨st.bytes.drop (256 * l0 + l1), st.bits, st.validBits⟩))
        ∧ (∀ (e : Error) (d4 : Decoder),
          body ⟨(st.bytes.drop 4).take (256 * l0 + l1 - 4), st.bits, st.validBits⟩
            = (.error e, d4) →
          tlvParam tlvId body st = (.error e, st)))
    ∧ ((∀ d m, (body d).1 ≠ .error (.TlvParameterLengthInvalid m)) →
        ∀ (m : Nat) (st2 : Decoder),
        tlvParam tlvId body st = (.error (.TlvParameterLengthInvalid m), st2) →
        256 * l0 + l1 < 4 ∨ 256 * l0 + l1 > st.bytes.length) := by
  have hcheck : checkParamType tlvId st = (.ok (), { st with bytes := st.bytes.drop 2 }) := by
    simp [checkParamType, hpeek]
  have hread : readU16 { st with bytes := st.bytes.drop 2 }
      = (.ok (256 * l0 + l1), { st with bytes := st.bytes.drop 4 }) := by
    have hge : ¬ ((rest.length + 1 + 1) < 2) := by omega
    simp [readU16, readBytes, hb, hge]
  have hmod : (256 * l0 + l1) % 65536 = 256 * l0 + l1 := Nat.mod_eq_of_lt (by omega)
  unfold tlvParam
  rw [hcheck]
  dsimp only
  rw [hread]
  dsimp only
  refine ⟨?_, fun h4le hlelen => ⟨?_, ?_⟩, ?_⟩
  · intro hlen
    rw [if_pos hlen, hmod]
  · intro v d4 hbody hempty
    rw [if_neg (by omega), hbody]
    dsimp only
    simp [validateConsumed, hempty]
  · intro e d4 hbody
    rw [if_neg (by omega), hbody]
  · intro hbody m st2 heq
    by_contra hno
    rw [not_or] at hno
    rw [if_neg (by omega)] at heq
    rcases h3 : body ⟨(st.bytes.drop 4).take (256 * l0 + l1 - 4), st.bits, st.validBits⟩
      with ⟨r3, d4⟩
    rw [show (⟨List.take (256 * l0 + l1 - 4) (List.drop 4 st.bytes), st.bits, st.validBits⟩ : Decoder)
        = ⟨(st.bytes.drop 4).take (256 * l0 + l1 - 4), st.bits, st.validBits⟩ from rfl, h3] at heq
    cases r3 with
    | error e3 =>
      dsimp only at heq
      have := congrArg Prod.fst heq
      simp only [] at this
      apply hbody ⟨(st.bytes.drop 4).take (256 * l0 + l1 - 4), st.bits, st.validBits⟩ m
      rw [h3]
      simpa using this
    | ok v =>
      dsimp only at heq
      rcases h4 : validateConsumed d4 with e4 | u4
      · rw [h4] at heq
        have he := congrArg Prod.fst heq
        unfold validateConsumed at h4
        by_cases hb4 : d4.bytes = []
        · simp [hb4] at h4
        · simp [hb4] at h4
          rw [← h4] at he
          simp at he
      · rw [h4] at heq
        have := congrArg Prod.fst heq
        simp at this

/-- Witness for C5: a frame with TLV id 300 and length field 3 fails the
length check with TlvParameterLengthInvalid and leaves the cursor at the
parameter start. -/
theorem c5_witness :
    tlvParam 300 (fun d => ((.ok 0 : Except Error Nat), d)) ⟨[1, 44, 0, 3], 0, 0⟩
      = (.error (.TlvParameterLengthInvalid 3), ⟨[1, 44, 0, 3], 0, 0⟩) := by
  have h := (c5_tlv_param_length_check 300 (fun d => ((.ok 0 : Except Error Nat), d))
    ⟨[1, 44, 0, 3], 0, 0⟩ 1 44 0 3 [] rfl (by decide) (by decide) (by decide)).1
    (by decide)
  simpa using h

theorem sumWidths_cons (f : Nat × Nat) (g : List (Nat × Nat)) :
    sumWidths (f :: g) = f.1 + sumWidths g := by
  simp [sumWidths]

theorem packBits_cons (w : Nat) (f : Nat × Nat) (g : List (Nat × Nat)) :
    packBits w (f :: g) = packBits (w * 2 ^ f.1 + f.2) g := rfl

theorem packStep_lt (b vb v n : Nat) (hb : b < 2 ^ vb) (hv : v < 2 ^ n) :
    b * 2 ^ n + v < 2 ^ (vb + n) := by
  have h1 : b * 2 ^ n + v < (b + 1) * 2 ^ n := by
    have h2 : (b + 1) * 2 ^ n = b * 2 ^ n + 2 ^ n := by ring
    omega
  have h3 : (b + 1) * 2 ^ n ≤ 2 ^ vb * 2 ^ n :=
    Nat.mul_le_mul_right _ (Nat.succ_le.mpr hb)
  have h4 : (2 : Nat) ^ vb * 2 ^ n = 2 ^ (vb + n) := (pow_add 2 vb n).symm
  omega

theorem packBits_split (g : List (Nat × Nat)) :
    ∀ w, packBits w g = w * 2 ^ sumWidths g + packBits 0 g := by
  induction g with
  | nil => intro w; simp [packBits, sumWidths]
  | cons f g2 ih =>
    intro w
    rw [packBits_cons, packBits_cons, ih (w * 2 ^ f.1 + f.2), ih (0 * 2 ^ f.1 + f.2),
      sumWidths_cons, pow_add]
    ring

theorem packBits_zero_lt (g : List (Nat × Nat)) (hg : ∀ f ∈ g, f.2 < 2 ^ f.1) :
    packBits 0 g < 2 ^ sumWidths g := by
  induction g with
  | nil => simp [packBits, sumWidths]
  | cons f g2 ih =>
    rw [packBits_cons]
    have h0 : (0 : Nat) * 2 ^ f.1 + f.2 = f.2 := by ring
    rw [h0, packBits_split g2 f.2, sumWidths_cons]
    exact packStep_lt f.2 f.1 (packBits 0 g2) (sumWidths g2)
      (hg f (by simp)) (ih (fun x hx => hg x (by simp [hx])))

theorem drainBits_low (e : Encoder) (h : e.validBits < 8) : drainBits e = e := by
  conv_lhs => rw [drainBits]
  rw [dif_neg (by omega)]

theorem drainBits_step (e : Encoder) (h : 8 ≤ e.validBits) :
    drainBits e = drainBits ⟨e.buffer ++ [e.bits &&& 255], e.bits >>> 8, e.validBits - 8⟩ := by
  conv_lhs => rw [drainBits]
  rw [dif_pos h]

theorem drainBits_eight (e : Encoder) (h : e.validBits = 8) (hb : e.bits < 256) :
    drainBits e = ⟨e.buffer ++ [e.bits], 0, 0⟩ := by
  have hand : e.bits &&& 255 = e.bits := by
    have h255 : (255 : Nat) = 2 ^ 8 - 1 := by norm_num
    rw [h255, Nat.and_pow_two_sub_one_eq_mod]
    exact Nat.mod_eq_of_lt hb
  have hshift : e.bits >>> 8 = 0 := by
    rw [Nat.shiftRight_eq_div_pow]
    have h256 : (2 : Nat) ^ 8 = 256 := by norm_num
    rw [h256]
    exact Nat.div_eq_of_lt hb
  conv_lhs => rw [drainBits]
  rw [dif_pos (by omega)]
  rw [drainBits_low _ (by show e.validBits - 8 < 8; omega)]
  rw [hand, hshift, h]

theorem writeBits_arith (e : Encoder) (v n : Nat) (hv : v < 2 ^ n)
    (hbits : e.bits < 2 ^ e.validBits) (hsum : e.validBits + n ≤ 8) :
    writeBits v n e = drainBits ⟨e.buffer, e.bits * 2 ^ n + v, e.validBits + n⟩ := by
  unfold writeBits
  have hlt : e.bits * 2 ^ n < 4294967296 := by
    have h1 : e.bits * 2 ^ n + v < 2 ^ (e.validBits + n) := packStep_lt _ _ _ _ hbits hv
    have h2 : (2 : Nat) ^ (e.validBits + n) ≤ 2 ^ 8 := Nat.pow_le_pow_right (by norm_num) hsum
    have h256 : (2 : Nat) ^ 8 = 256 := by norm_num
    omega
  have hbits_eq : ((e.bits <<< n) % 4294967296) ||| v = e.bits * 2 ^ n + v := by
    calc ((e.bits <<< n) % 4294967296) ||| v
        = (e.bits * 2 ^ n) ||| v := by rw [Nat.shiftLeft_eq, Nat.mod_eq_of_lt hlt]
      _ = (2 ^ n * e.bits) ||| v := by rw [mul_comm]
      _ = 2 ^ n * e.bits + v := (Nat.mul_add_lt_is_or hv e.bits).symm
      _ = e.bits * 2 ^ n + v := by ring
  rw [hbits_eq]

theorem writeBitsSeq_cons (f : Nat × Nat) (g : List (Nat × Nat)) (e : Encoder) :
    writeBitsSeq (f :: g) e = writeBitsSeq g (writeBits f.2 f.1 e) := rfl

theorem writeBitsSeq_append (a b : List (Nat × Nat)) (e : Encoder) :
    writeBitsSeq (a ++ b) e = writeBitsSeq b (writeBitsSeq a e) := by
  unfold writeBitsSeq
  exact List.foldl_append _ _ _ _

theorem writeBitsSeq_group (g : List (Nat × Nat)) : ∀ e : Encoder,
    (∀ f ∈ g, 1 ≤ f.1 ∧ f.2 < 2 ^ f.1) → g ≠ [] →
    e.validBits + sumWidths g = 8 → e.bits < 2 ^ e.validBits →
    writeBitsSeq g e = ⟨e.buffer ++ [packBits e.bits g], 0, 0⟩ := by
  induction g with
  | nil => intro e _ hne _ _; exact absurd rfl hne
  | cons f g2 ih =>
    intro e hg hne hsum hbits
    have hv : f.2 < 2 ^ f.1 := (hg f (by simp)).2
    rw [sumWidths_cons] at hsum
    rw [writeBitsSeq_cons,
      writeBits_arith e f.2 f.1 hv hbits (by omega)]
    have hlt : e.bits * 2 ^ f.1 + f.2 < 2 ^ (e.validBits + f.1) :=
      packStep_lt _ _ _ _ hbits hv
    rcases g2 with _ | ⟨f2, g3⟩
    · have hv8 : e.validBits + f.1 = 8 := by
        simp [sumWidths] at hsum
        omega
      rw [drainBits_eight ⟨e.buffer, e.bits * 2 ^ f.1 + f.2, e.validBits + f.1⟩
        (by show e.validBits + f.1 = 8; omega)
        (by
          show e.bits * 2 ^ f.1 + f.2 < 256
          have h256 : (2 : Nat) ^ 8 = 256 := by norm_num
          rw [hv8] at hlt
          omega)]
      rfl
    · have hpos : 1 ≤ sumWidths (f2 :: g3) := by
        rw [sumWidths_cons]
        have := (hg f2 (by simp)).1
        omega
      rw [drainBits_low ⟨e.buffer, e.bits * 2 ^ f.1 + f.2, e.validBits + f.1⟩
        (by show e.validBits + f.1 < 8; omega)]
      rw [ih ⟨e.buffer, e.bits * 2 ^ f.1 + f.2, e.validBits + f.1⟩
        (fun x hx => hg x (by simp [hx])) (by simp)
        (by show e.validBits + f.1 + sumWidths (f2 :: g3) = 8; omega)
        (by show e.bits * 2 ^ f.1 + f.2 < 2 ^ (e.validBits + f.1); exact hlt)]
      rfl

theorem writeBitsSeq_groups (gs : List (List (Nat × Nat))) : ∀ buf : List Nat,
    (∀ g ∈ gs, goodGroup g) →
    writeBitsSeq gs.flatten (Encoder.new buf) = ⟨buf ++ gs.map (packBits 0), 0, 0⟩ := by
  induction gs with
  | nil => intro buf _; simp [writeBitsSeq, Encoder.new]
  | cons g gs2 ih =>
    intro buf h
    obtain ⟨hg, hsum⟩ := h g (by simp)
    have hne : g ≠ [] := by
      intro hnil
      rw [hnil] at hsum
      simp [sumWidths] at hsum
    rw [List.flatten_cons, writeBitsSeq_append,
      writeBitsSeq_group g (Encoder.new buf) hg hne (by simpa [Encoder.new] using hsum)
        (by simp [Encoder.new])]
    dsimp only [Encoder.new]
    have hi := ih (buf ++ [packBits 0 g]) (fun g2 hg2 => h g2 (by simp [hg2]))
    rw [show (⟨buf ++ [packBits 0 g], 0, 0⟩ : Encoder)
      = Encoder.new (buf ++ [packBits 0 g]) from rfl, hi]
    simp

theorem fillBits_done (n : Nat) (st : Decoder) (h : ¬ st.validBits < n) :
    fillBits n st = (.ok (), st) := by
  conv_lhs => rw [fillBits]
  rw [dif_neg h]

theorem fillBits_cons (n b : Nat) (rest : List Nat) (bits valid : Nat) (h : valid < n) :
    fillBits n ⟨b :: rest, bits, valid⟩
      = fillBits n ⟨rest, ((bits <<< 8) % 4294967296) ||| b, valid + 8⟩ := by
  conv_lhs => rw [fillBits]
  rw [dif_pos h]
  have hu8 : readU8 ⟨b :: rest, bits, valid⟩ = (.ok b, ⟨rest, bits, valid⟩) := by
    simp [readU8, readBytes]
  rw [hu8]

theorem readBits_of_fill (n : Nat) (st st2 : Decoder)
    (h : fillBits n st = fillBits n st2) : readBits n st = readBits n st2 := by
  unfold readBits
  rw [h]

theorem readBitsSeq_in_group (g : List (Nat × Nat)) : ∀ (ws : List Nat) (st : Decoder),
    (∀ f ∈ g, 1 ≤ f.1 ∧ f.2 < 2 ^ f.1) →
    st.validBits = sumWidths g → st.bits = packBits 0 g → sumWidths g ≤ 8 →
    readBitsSeq (g.map Prod.fst ++ ws) st
      = prependValues (g.map Prod.snd) (readBitsSeq ws ⟨st.bytes, 0, 0⟩) := by
  induction g with
  | nil =>
    intro ws st _ hv hb _
    obtain ⟨sb, sbits, sv⟩ := st
    simp only [sumWidths, List.map_nil, List.sum_nil] at hv
    simp only [packBits, List.foldl_nil] at hb
    subst hv
    subst hb
    simp only [List.map_nil, List.nil_append]
    rcases hr : readBitsSeq ws ⟨sb, 0, 0⟩ with ⟨r, st2⟩
    cases r <;> simp [prependValues]
  | cons f g2 ih =>
    intro ws st hg hv hb hle
    rw [sumWidths_cons] at hv hle
    have hn1 : 1 ≤ f.1 := (hg f (by simp)).1
    have hv2 : f.2 < 2 ^ f.1 := (hg f (by simp)).2
    have hfill := fillBits_done f.1 st (by omega)
    have houts : st.validBits - f.1 = sumWidths g2 := by omega
    have hpack0 : packBits 0 (f :: g2) = packBits f.2 g2 := by
      rw [packBits_cons]
      norm_num
    have hsplit := packBits_split g2 f.2
    have hlt0 := packBits_zero_lt g2 (fun x hx => (hg x (by simp [hx])).2)
    have hout : st.bits >>> (st.validBits - f.1) = f.2 := by
      rw [houts, hb, hpack0, hsplit, Nat.shiftRight_eq_div_pow, mul_comm,
        Nat.mul_add_div (Nat.pos_pow_of_pos _ (by norm_num)),
        Nat.div_eq_of_lt hlt0]
      omega
    have hmask : st.bits &&& ((1 <<< (st.validBits - f.1)) - 1) = packBits 0 g2 := by
      rw [houts, hb, hpack0, hsplit, Nat.shiftLeft_eq, one_mul,
        Nat.and_pow_two_sub_one_eq_mod, mul_comm, Nat.mul_add_mod,
        Nat.mod_eq_of_lt hlt0]
    have hread : readBits f.1 st = (.ok f.2, ⟨st.bytes, packBits 0 g2, sumWidths g2⟩) := by
      unfold readBits
      rw [hfill]
      dsimp only
      rw [hout, hmask, houts]
    simp only [List.map_cons, List.cons_append, readBitsSeq]
    rw [hread]
    dsimp only
    rw [show (List.map Prod.fst g2).append ws = List.map Prod.fst g2 ++ ws from rfl]
    rw [ih ws ⟨st.bytes, packBits 0 g2, sumWidths g2⟩
      (fun x hx => hg x (by simp [hx])) rfl rfl (by omega)]
    rcases readBitsSeq ws ⟨st.bytes, 0, 0⟩ with ⟨r, stR⟩
    cases r <;> simp [prependValues]

theorem readBitsSeq_group_start (g : List (Nat × Nat)) (ws : List Nat) (rest : List Nat)
    (hgood : goodGroup g) :
    readBitsSeq (g.map Prod.fst ++ ws) ⟨packBits 0 g :: rest, 0, 0⟩
      = prependValues (g.map Prod.snd) (readBitsSeq ws ⟨rest, 0, 0⟩) := by
  obtain ⟨hg, hsum⟩ := hgood
  rcases g with _ | ⟨f, g2⟩
  · simp [sumWidths] at hsum
  · have hn1 : 1 ≤ f.1 := (hg f (by simp)).1
    have hle8 : f.1 ≤ 8 := by
      rw [sumWidths_cons] at hsum
      omega
    have hfillstep : fillBits f.1 ⟨packBits 0 (f :: g2) :: rest, 0, 0⟩
        = fillBits f.1 ⟨rest, packBits 0 (f :: g2), 8⟩ := by
      rw [fillBits_cons f.1 _ rest 0 0 (by omega)]
      norm_num
    have hstates := readBits_of_fill f.1 _ _ hfillstep
    have hmain := readBitsSeq_in_group (f :: g2) ws ⟨rest, packBits 0 (f :: g2), 8⟩
      hg (by rw [hsum]) rfl (by rw [hsum])
    simp only [List.map_cons, List.cons_append, readBitsSeq] at hmain ⊢
    rw [hstates]
    exact hmain

theorem readBitsSeq_groups (gs : List (List (Nat × Nat)))
    (h : ∀ g ∈ gs, goodGroup g) :
    readBitsSeq (gs.flatten.map Prod.fst) ⟨gs.map (packBits 0), 0, 0⟩
      = (.ok (gs.flatten.map Prod.snd), ⟨[], 0, 0⟩) := by
  induction gs with
  | nil => simp [readBitsSeq]
  | cons g gs2 ih =>
    rw [List.flatten_cons, List.map_append, List.map_cons, List.map_append]
    rw [show (⟨packBits 0 g :: gs2.map (packBits 0), 0, 0⟩ : Decoder)
      = ⟨packBits 0 g :: gs2.map (packBits 0), 0, 0⟩ from rfl]
    rw [readBitsSeq_group_start g _ (gs2.map (packBits 0)) (h g (by simp))]
    rw [ih (fun g2 hg2 => h g2 (by simp [hg2]))]
    simp [prependValues]

/-- Counterexample to C2 as stated: the widths 4, 8, 4 (all in 1..=15, sum
16) with values 0, 255, 0. write_bits emits the LOW byte of the accumulator
whenever 8 or more bits are buffered, so the buffer becomes [255, 0] instead
of the MSB first [15, 240]; reading the widths back yields 15, 240, 0, not
0, 255, 0. -/
theorem c2_counterexample :
    writeBitsSeq [(4, 0), (8, 255), (4, 0)] (Encoder.new []) = ⟨[255, 0], 0, 0⟩
    ∧ readBitsSeq [4, 8, 4] (Decoder.new [255, 0]) = (.ok [15, 240, 0], ⟨[], 0, 0⟩)
    ∧ (readBitsSeq [4, 8, 4]
        (Decoder.new (writeBitsSeq [(4, 0), (8, 255), (4, 0)] (Encoder.new [])).buffer)).1
      ≠ .ok [0, 255, 0] := by
  have h255 : (255 : Nat) &&& 255 = 255 := by decide
  have h15a : (255 : Nat) &&& 15 = 15 := by decide
  have h15b : (3840 : Nat) &&& 15 = 0 := by decide
  have hw : writeBitsSeq [(4, 0), (8, 255), (4, 0)] (Encoder.new []) = ⟨[255, 0], 0, 0⟩ := by
    simp [writeBitsSeq, writeBits, Encoder.new, drainBits_step, drainBits_low, h255]
  have hr : readBitsSeq [4, 8, 4] (Decoder.new [255, 0]) = (.ok [15, 240, 0], ⟨[], 0, 0⟩) := by
    simp [readBitsSeq, readBits, fillBits_cons, fillBits_done, Decoder.new,
      readU8, readBytes, h15a, h15b]
  refine ⟨hw, hr, ?_⟩
  rw [hw]
  rw [show Decoder.new (Encoder.mk [255, 0] 0 0).buffer = Decoder.new [255, 0] from rfl, hr]
  simp

/-- C2 amended: write_bits mirrors read_bits provided no value straddles a
byte boundary, i.e. the width sequence partitions into consecutive groups
each summing to exactly 8 bits (widths at least 1, values below 2^width).
Writing the values of the flattened groups and then reading the same widths
returns exactly the written values, consuming all produced bytes. -/
theorem c2_write_read_bits_mirror_aligned (gs : List (List (Nat × Nat)))
    (h : ∀ g ∈ gs, goodGroup g) :
    readBitsSeq (gs.flatten.map Prod.fst)
        (Decoder.new (writeBitsSeq gs.flatten (Encoder.new [])).buffer)
      = (.ok (gs.flatten.map Prod.snd), ⟨[], 0, 0⟩) := by
  rw [writeBitsSeq_groups gs [] h]
  rw [show Decoder.new (Encoder.mk ([] ++ gs.map (packBits 0)) 0 0).buffer
    = ⟨gs.map (packBits 0), 0, 0⟩ from by simp [Decoder.new]]
  exact readBitsSeq_groups gs h

/-- Witness for C2 amended: the byte aligned groups (4, 10) (4, 5) written
then read return 10 and 5. -/
theorem c2_witness :
    readBitsSeq [4, 4] (Decoder.new (writeBitsSeq [(4, 10), (4, 5)] (Encoder.new [])).buffer)
      = (.ok [10, 5], ⟨[], 0, 0⟩) := by
  have h := c2_write_read_bits_mirror_aligned [[(4, 10), (4, 5)]] (by decide)
  simpa using h

end LLRP
